import Mathlib

/-!
Shallow embedding of the `stoncc` arithmetic-expression reader
(`src/lexer.rs`, `src/parser.rs`, `src/main.rs`).

The byte buffer is modelled as a `List Char` of ASCII characters; the
lexer state keeps the unread suffix of the buffer together with the
one-token lookahead cache.  Every fatal path of the Rust code (panic,
`assert!` failure, `process::exit`) is modelled as `none`; machine
integers (`i32`) are modelled as `Int` together with explicit range
checks where the Rust code would panic on overflow in a checked build,
and the `as u32` cast in exponentiation is modelled as reduction
modulo `2 ^ 32`.  The parser's recursion is made total with a fuel
parameter that is always chosen large enough for the input at hand.
-/

/-! ## Character classes (`u8::is_ascii_*` as used by `lexer.rs`) -/

def isAsciiDigit (c : Char) : Bool :=
  '0' ≤ c && c ≤ '9'

def isAsciiAlpha (c : Char) : Bool :=
  ('a' ≤ c && c ≤ 'z') || ('A' ≤ c && c ≤ 'Z')

def isAsciiAlnum (c : Char) : Bool :=
  isAsciiDigit c || isAsciiAlpha c

def isAsciiWhitespace (c : Char) : Bool :=
  c == ' ' || c == '\t' || c == '\n' || c == '\x0c' || c == '\r'

/-- The eight single-character operator/punctuation bytes recognised by
the first arm of the scanning loop in `Lexer::next`. -/
def isOpChar (c : Char) : Bool :=
  c == '+' || c == '-' || c == '*' || c == '/' ||
  c == '^' || c == '!' || c == '(' || c == ')'

/-! ## Tokens (`lexer.rs`) -/

inductive Token where
  | TInt (v : Int)
  | TSym (s : String)
  | Plus
  | Minus
  | Star
  | Slash
  | LParen
  | RParen
  | Caret
  | Fac
  | Eof
deriving DecidableEq, Repr

/-- `Token::from_op`; the catch-all arm panics, hence `none`. -/
def Token.from_op (c : Char) : Option Token :=
  if c == '+' then some Token.Plus
  else if c == '-' then some Token.Minus
  else if c == '*' then some Token.Star
  else if c == '/' then some Token.Slash
  else if c == '(' then some Token.LParen
  else if c == ')' then some Token.RParen
  else if c == '^' then some Token.Caret
  else if c == '!' then some Token.Fac
  else none

/-- Value of a digit string read left to right, as `str::parse` does. -/
def digitsToNat (ds : List Char) : Nat :=
  ds.foldl (fun a c => a * 10 + (c.toNat - '0'.toNat)) 0

def i32max : Int := 2 ^ 31 - 1

def i32min : Int := -(2 ^ 31)

/-- `Token::from_int`: greedily take the digit run and parse it as a
decimal `i32`; `parse().unwrap()` panics when the value exceeds
`i32::MAX`, hence `none`.  The consumed prefix is returned implicitly
as the second component (the unread rest of the buffer). -/
def Token.from_int (s : List Char) : Option (Token × List Char) :=
  let ds := s.takeWhile isAsciiDigit
  let rest := s.dropWhile isAsciiDigit
  if (digitsToNat ds : Int) ≤ i32max then
    some (Token.TInt (digitsToNat ds), rest)
  else
    none

/-- `Token::from_symbol`: greedily take the alphanumeric run. -/
def Token.from_symbol (s : List Char) : Token × List Char :=
  (Token.TSym ⟨s.takeWhile isAsciiAlnum⟩, s.dropWhile isAsciiAlnum)

/-! ## The lexer (`struct Lexer`) -/

/-- Lexer state: the single-token lookahead buffer and the unread
suffix of the input (the Rust code keeps the whole slice plus an
index; only the suffix from the index on is ever inspected). -/
structure Lexer where
  peeked : Option Token
  s : List Char
deriving DecidableEq, Repr

/-- The scanning loop of `Lexer::next` (the part that runs when the
lookahead buffer is empty): skip whitespace, then dispatch on the
first byte; an unrecognised byte calls `Lexer::error`, which
terminates the process, hence `none`. -/
def rawNext : List Char → Option (Token × List Char)
  | [] => some (Token.Eof, [])
  | c :: rest =>
    if isOpChar c then
      (Token.from_op c).map fun t => (t, rest)
    else if isAsciiDigit c then
      Token.from_int (c :: rest)
    else if isAsciiAlpha c then
      some (Token.from_symbol (c :: rest))
    else if isAsciiWhitespace c then
      rawNext rest
    else
      none

/-- `Lexer::next`: drain the lookahead buffer if it is full, else scan. -/
def Lexer.next (l : Lexer) : Option (Token × Lexer) :=
  match l.peeked with
  | some t => some (t, ⟨none, l.s⟩)
  | none => (rawNext l.s).map fun p => (p.1, ⟨none, p.2⟩)

/-- `Lexer::peek`: fill the lookahead buffer on first use and return
its content without consuming it. -/
def Lexer.peek (l : Lexer) : Option (Token × Lexer) :=
  match l.peeked with
  | some t => some (t, l)
  | none => (rawNext l.s).map fun p => (p.1, ⟨some p.1, p.2⟩)

/-! ## The expression tree (`parser.rs`) -/

inductive NodeVal where
  | Add
  | Sub
  | Mul
  | Div
  | Exp
  | Fac
deriving DecidableEq, Repr

inductive LeafVal where
  | IntV (v : Int)
  | SymV (s : String)
deriving DecidableEq, Repr

set_option linter.dupNamespace false in
inductive Node where
  | Leaf (v : LeafVal)
  | Node (v : NodeVal) (children : List Node)

/-- `NodeVal::infix_prec`; the catch-all arm panics, hence `none`. -/
def NodeVal.infix_prec : NodeVal → Option (Int × Int)
  | NodeVal.Add | NodeVal.Sub => some (1, 2)
  | NodeVal.Mul | NodeVal.Div => some (3, 4)
  | NodeVal.Exp => some (8, 7)
  | _ => none

/-- `NodeVal::prefix_prec`; the catch-all arm panics, hence `none`. -/
def NodeVal.prefix_prec : NodeVal → Option Int
  | NodeVal.Add | NodeVal.Sub => some 5
  | _ => none

/-- `NodeVal::postfix_prec`. -/
def NodeVal.postfix_prec : NodeVal → Option Int
  | NodeVal.Fac => some 6
  | _ => none

/-- `impl From<&Token> for NodeVal`; the catch-all arm panics, hence
`none`. -/
def NodeVal.fromToken : Token → Option NodeVal
  | Token.Plus => some NodeVal.Add
  | Token.Minus => some NodeVal.Sub
  | Token.Star => some NodeVal.Mul
  | Token.Slash => some NodeVal.Div
  | Token.Caret => some NodeVal.Exp
  | Token.Fac => some NodeVal.Fac
  | _ => none

/-! ## The binding-power parser (`expr_bp`) -/

/-!
`expr_bp`, split into the computation of the primary left-hand side
(`exprBp`) and the operator loop (`exprLoop`), which are mutually
recursive exactly as the recursive calls inside the Rust loop are.
A fuel parameter makes the recursion structural; `0` fuel gives
`none`, and the entry point `expr` always supplies enough fuel for
its input.  Every panic / failed assertion is `none`.
-/

mutual

def exprBp : Nat → Lexer → Int → Option (Node × Lexer)
  | 0, _, _ => none
  | fuel + 1, tokens, min_prec =>
    match Lexer.next tokens with
    | none => none
    | some (t, tokens) =>
      match t with
      | Token.TInt v =>
        exprLoop fuel tokens min_prec (Node.Leaf (LeafVal.IntV v))
      | Token.TSym s =>
        exprLoop fuel tokens min_prec (Node.Leaf (LeafVal.SymV s))
      | Token.LParen =>
        match exprBp fuel tokens 0 with
        | none => none
        | some (lhs, tokens) =>
          match Lexer.next tokens with
          | some (Token.RParen, tokens) => exprLoop fuel tokens min_prec lhs
          | _ => none
      | Token.Minus =>
        match NodeVal.prefix_prec NodeVal.Sub with
        | none => none
        | some prec =>
          match exprBp fuel tokens prec with
          | none => none
          | some (rhs, tokens) =>
            exprLoop fuel tokens min_prec (Node.Node NodeVal.Sub [rhs])
      | Token.Plus =>
        match NodeVal.prefix_prec NodeVal.Add with
        | none => none
        | some prec =>
          match exprBp fuel tokens prec with
          | none => none
          | some (rhs, tokens) =>
            exprLoop fuel tokens min_prec (Node.Node NodeVal.Add [rhs])
      | _ => none

def exprLoop : Nat → Lexer → Int → Node → Option (Node × Lexer)
  | 0, _, _, _ => none
  | fuel + 1, tokens, min_prec, lhs =>
    match Lexer.peek tokens with
    | none => none
    | some (t, tokens) =>
      match t with
      | Token.Eof | Token.RParen => some (lhs, tokens)
      | Token.TInt _ => none
      | t =>
        match NodeVal.fromToken t with
        | none => none
        | some op =>
          match NodeVal.postfix_prec op with
          | some lhs_prec =>
            if lhs_prec < min_prec then
              some (lhs, tokens)
            else
              match Lexer.next tokens with
              | none => none
              | some (_, tokens) =>
                exprLoop fuel tokens min_prec (Node.Node op [lhs])
          | none =>
            match NodeVal.infix_prec op with
            | none => none
            | some (lhs_prec, rhs_prec) =>
              if lhs_prec < min_prec then
                some (lhs, tokens)
              else
                match Lexer.next tokens with
                | none => none
                | some (_, tokens) =>
                  match exprBp fuel tokens rhs_prec with
                  | none => none
                  | some (rhs, tokens) =>
                    exprLoop fuel tokens min_prec (Node.Node op [lhs, rhs])

end

/-- Fuel that is always sufficient: each tick of `exprBp`/`exprLoop`
either consumes at least one character of input or terminates. -/
def fuelFor (s : List Char) : Nat := s.length + 2

/-- `expr`: run `expr_bp` on a fresh lexer with minimum binding
power 0. -/
def expr (s : List Char) : Option Node :=
  match exprBp (fuelFor s) ⟨none, s⟩ 0 with
  | some (n, _) => some n
  | none => none

/-- Characters of a string literal, the input alphabet of `expr`. -/
def chars (s : String) : List Char := s.data

/-! ## Operator application (`NodeVal::apply`) and the evaluator (`eval` in `main.rs`) -/

/-- Range check modelling the overflow panic of checked `i32`
arithmetic: a mathematical result outside the `i32` range aborts. -/
def ckd (v : Int) : Option Int :=
  if i32min ≤ v ∧ v ≤ i32max then some v else none

/-- `fac` from `parser.rs` on non-negative input, with the
checked-multiplication overflow of `fac(n-1) * n` modelled as `none`. -/
def facCkd : Nat → Option Int
  | 0 => some 1
  | 1 => some 1
  | n + 2 => (facCkd (n + 1)).bind fun f => ckd (f * ((n : Int) + 2))

/-- `fac` from `parser.rs`: `0` and `1` map to `1`, otherwise
`fac(n-1) * n`; on negative input the Rust function recurses without a
base case and exhausts the stack, modelled as `none`. -/
def fac (n : Int) : Option Int :=
  if n < 0 then none else facCkd n.toNat

/-- The `as u32` cast applied to the exponent in `NodeVal::apply`:
reduction modulo `2 ^ 32`, so a negative `i32` exponent `e` becomes
the large unsigned value `2 ^ 32 + e`. -/
def u32cast (e : Int) : Nat := (e % 2 ^ 32).toNat

/-- `NodeVal::apply`.  `Add`/`Mul` fold checked addition resp.
multiplication over all arguments as `iter().sum()` / `iter().product()`
do; arity mismatches hit a `panic!` / failed `assert_eq!`; `Div`
models the division-by-zero abort and the `MIN / -1` overflow; `Exp`
models `args[0].pow(args[1] as u32)`, whose overflow panic is the
range check on the mathematical power. -/
def NodeVal.apply : NodeVal → List Int → Option Int
  | NodeVal.Add, args => args.foldlM (fun a b => ckd (a + b)) 0
  | NodeVal.Sub, args =>
    match args with
    | [a] => ckd (-a)
    | [a, b] => ckd (a - b)
    | _ => none
  | NodeVal.Mul, args => args.foldlM (fun a b => ckd (a * b)) 1
  | NodeVal.Div, args =>
    match args with
    | [a, b] => if b = 0 then none else ckd (a.tdiv b)
    | _ => none
  | NodeVal.Exp, args =>
    match args with
    | [a, b] => ckd (a ^ u32cast b)
    | _ => none
  | NodeVal.Fac, args =>
    match args with
    | [a] => fac a
    | _ => none

mutual

def eval : Node → Option Int
  | Node.Leaf (LeafVal.IntV v) => some v
  | Node.Leaf (LeafVal.SymV _) => none
  | Node.Node v children =>
    (evalList children).bind fun args => NodeVal.apply v args

def evalList : List Node → Option (List Int)
  | [] => some []
  | n :: ns =>
    (eval n).bind fun a => (evalList ns).bind fun as => some (a :: as)

end

/-- The whole pipeline of `main`: parse, then evaluate. -/
def evalExpr (s : List Char) : Option Int := (expr s).bind eval

/-! ## Rendering (the `fmt::Display` implementations) -/

def LeafVal.render : LeafVal → String
  | LeafVal.IntV v => toString v
  | LeafVal.SymV s => s

def NodeVal.render : NodeVal → String
  | NodeVal.Add => "+"
  | NodeVal.Sub => "-"
  | NodeVal.Mul => "*"
  | NodeVal.Div => "/"
  | NodeVal.Exp => "^"
  | NodeVal.Fac => "!"

mutual

def Node.render : Node → String
  | Node.Leaf v => LeafVal.render v
  | Node.Node v children =>
    "(" ++ NodeVal.render v ++ renderList children ++ ")"

def renderList : List Node → String
  | [] => ""
  | n :: ns => " " ++ Node.render n ++ renderList ns

end

/-! ## Arity predicates on trees -/

/-- Child-count demanded of `Add`/`Mul` nodes by the claim as stated:
exactly 2. -/
def binaryV : NodeVal → Nat → Bool
  | NodeVal.Add, n => n == 2
  | NodeVal.Mul, n => n == 2
  | _, _ => true

mutual

def addMulBinary : Node → Bool
  | Node.Leaf _ => true
  | Node.Node v children =>
    binaryV v children.length && addMulBinaryList children

def addMulBinaryList : List Node → Bool
  | [] => true
  | n :: ns => addMulBinary n && addMulBinaryList ns

end

/-- The tokens the operator loop of `expr_bp` treats as misplaced
literals: an integer hits the explicit `panic!("Expected operator")`
arm, a symbol falls through to the panicking catch-all of
`From<&Token> for NodeVal`. -/
def isLitToken : Token → Bool
  | Token.TInt _ => true
  | Token.TSym _ => true
  | _ => false

/-- Child count actually produced by the parser for `Add`/`Mul` nodes:
`Mul` always has exactly 2 children, `Add` has 1 (prefix plus) or 2. -/
def arityV : NodeVal → Nat → Bool
  | NodeVal.Add, n => n == 1 || n == 2
  | NodeVal.Mul, n => n == 2
  | _, _ => true

mutual

def arityOk : Node → Bool
  | Node.Leaf _ => true
  | Node.Node v children =>
    arityV v children.length && arityOkList children

def arityOkList : List Node → Bool
  | [] => true
  | n :: ns => arityOk n && arityOkList ns

end

/-! ## Theorems -/

/-- C3: `parse("f ^ g !")` returns a tree rendering `"(! (^ f g))"`:
the postfix factorial (postfix power 6, below the exponent operator's
right power 7) is rejected inside the right-hand recursive call and
wraps the whole exponentiation node at the outer level. -/
theorem postfix_vs_power_render :
    (expr (chars "f ^ g !")).map Node.render = some "(! (^ f g))" := by
  decide

/-- C4: `^` is right-associative: `parse("f ^ g ^ h")` renders
`"(^ f (^ g h))"`, and `evaluate(parse("2 ^ 3 ^ 2")) = 512`. -/
theorem caret_right_assoc :
    (expr (chars "f ^ g ^ h")).map Node.render = some "(^ f (^ g h))" ∧
      evalExpr (chars "2 ^ 3 ^ 2") = some 512 :=
  ⟨by decide, by decide⟩

/-- C5: infix `-` is left-associative: `parse("a - b - c")` renders
`"(- (- a b) c)"` and not `"(- a (- b c))"`, and
`evaluate(parse("1 - 2 - 3")) = -4`. -/
theorem minus_left_assoc :
    (expr (chars "a - b - c")).map Node.render = some "(- (- a b) c)" ∧
      (expr (chars "a - b - c")).map Node.render ≠ some "(- a (- b c))" ∧
      evalExpr (chars "1 - 2 - 3") = some (-4) :=
  ⟨by decide, by decide, by decide⟩

/-- C6: a literal immediately following a completed operand is fatal:
whenever the operator loop's lookahead is an `Int` or `Sym` token the
loop yields an error rather than a tree, and in particular
`parse("1 2")` terminates with an error. -/
theorem literal_after_literal_fatal :
    (∀ fuel l min_prec lhs t l', Lexer.peek l = some (t, l') →
      isLitToken t = true → exprLoop fuel l min_prec lhs = none) ∧
    expr (chars "1 2") = none := by
  constructor
  · intro fuel l min_prec lhs t l' hpeek hlit
    cases fuel with
    | zero => rfl
    | succ fuel =>
      simp only [exprLoop, hpeek]
      cases t <;> simp_all [isLitToken, NodeVal.fromToken]
  · rfl

/-- Closed witness for C6, at the loop state the parser reaches on the
input `"1 2"`. -/
theorem literal_after_literal_fatal_witness :
    exprLoop 3 ⟨none, chars "2"⟩ 0 (Node.Leaf (LeafVal.IntV 1)) = none :=
  literal_after_literal_fatal.1 3 ⟨none, chars "2"⟩ 0
    (Node.Leaf (LeafVal.IntV 1)) (Token.TInt 2) ⟨some (Token.TInt 2), []⟩
    rfl rfl

/-- The parse of `"1+2)" ++ rest` at any sufficient fuel: the loop
stops at the peeked-but-unconsumed `)` and `rest` is never inspected. -/
lemma exprBp_one_plus_two_paren (k : Nat) (rest : List Char) :
    exprBp (k + 6) ⟨none, '1' :: '+' :: '2' :: ')' :: rest⟩ 0 =
      some (Node.Node NodeVal.Add
        [Node.Leaf (LeafVal.IntV 1), Node.Leaf (LeafVal.IntV 2)],
        ⟨some Token.RParen, rest⟩) := rfl

/-- C7: trailing input after a complete top-level parse is never read:
for every suffix `rest`, parsing `"1+2)"` followed by `rest` succeeds
and returns the tree rendering `"(+ 1 2)"`, with no error for the
stray right parenthesis. -/
theorem trailing_input_never_read (rest : List Char) :
    (expr (chars "1+2)" ++ rest)).map Node.render = some "(+ 1 2)" := by
  have hc : chars "1+2)" ++ rest = '1' :: '+' :: '2' :: ')' :: rest := rfl
  rw [hc]
  unfold expr
  have hfuel : fuelFor ('1' :: '+' :: '2' :: ')' :: rest) = rest.length + 6 := by
    simp only [fuelFor, List.length_cons]
  rw [hfuel, exprBp_one_plus_two_paren]
  rfl

/-- Counterexample to C2 as stated: the parser accepts `"+1"` and the
returned tree contains an `Add` node with exactly one child, so not
every `Add` node of a parse result has two children. -/
theorem add_node_with_one_child :
    (expr (chars "+1")).map addMulBinary = some false ∧
      (expr (chars "+1")).map Node.render = some "(+ 1)" :=
  ⟨by decide, by decide⟩

/-- Applying `Exp` with base `1` never fails, whatever the exponent:
`1` to any `u32`-cast power is `1`, which is in range. -/
lemma apply_exp_one (e : Int) : NodeVal.apply NodeVal.Exp [1, e] = some 1 := by
  simp only [NodeVal.apply, one_pow]
  decide

/-- Counterexample to C1 as stated: evaluating the `Exp` node built
by `parse("1 ^ -1")` — two children, base `1`, exponent evaluating to
`-1` — succeeds with value `1`: the negative exponent is cast to
`u32` and `1` raised to the resulting huge power neither overflows
nor aborts, so a negative exponent is not fatal for every base. -/
theorem negative_exponent_not_always_fatal :
    eval (Node.Node NodeVal.Exp [Node.Leaf (LeafVal.IntV 1),
      Node.Node NodeVal.Sub [Node.Leaf (LeafVal.IntV 1)]]) = some 1 := by
  have h1 : eval (Node.Node NodeVal.Exp [Node.Leaf (LeafVal.IntV 1),
      Node.Node NodeVal.Sub [Node.Leaf (LeafVal.IntV 1)]]) =
      (evalList [Node.Leaf (LeafVal.IntV 1),
        Node.Node NodeVal.Sub [Node.Leaf (LeafVal.IntV 1)]]).bind
        (NodeVal.apply NodeVal.Exp) := by
    simp only [eval]
  have hargs : evalList [Node.Leaf (LeafVal.IntV 1),
      Node.Node NodeVal.Sub [Node.Leaf (LeafVal.IntV 1)]] = some [1, -1] := rfl
  rw [h1, hargs, Option.some_bind]
  exact apply_exp_one (-1)

/-- C1 amended: evaluating an `Exp` node with two children and a
negative exponent is fatal for every base of absolute value at least
2: the `as u32` cast turns the exponent into a value of at least
`2 ^ 31`, and the resulting power overflows the `i32` range.  (For
bases `-1`, `0` and `1` evaluation succeeds instead.) -/
theorem exp_negative_exponent_fatal (b e : Int) (hb : 2 ≤ |b|)
    (hlo : i32min ≤ e) (hneg : e < 0) :
    NodeVal.apply NodeVal.Exp [b, e] = none := by
  have hk : 32 ≤ u32cast e := by
    norm_num [u32cast, i32min] at hlo ⊢
    omega
  have hpow : (2 : Int) ^ 31 < |b ^ u32cast e| := by
    rw [abs_pow]
    have h1 : (2 : Int) ^ 32 ≤ 2 ^ u32cast e :=
      pow_le_pow_right₀ (by norm_num) hk
    have h2 : (2 : Int) ^ u32cast e ≤ |b| ^ u32cast e :=
      pow_le_pow_left₀ (by norm_num) hb _
    calc (2 : Int) ^ 31 < 2 ^ 32 := by norm_num
    _ ≤ 2 ^ u32cast e := h1
    _ ≤ |b| ^ u32cast e := h2
  simp only [NodeVal.apply]
  generalize hv : b ^ u32cast e = v at hpow
  have hcond : ¬ (i32min ≤ v ∧ v ≤ i32max) := by
    rcases lt_abs.mp hpow with h | h <;> · norm_num [i32min, i32max]; omega
  rw [ckd, if_neg hcond]

/-- Closed witness for the amended C1, at base `2` and exponent `-1`. -/
theorem exp_negative_exponent_fatal_witness :
    (2 ≤ |(2 : Int)|) ∧ (i32min ≤ (-1 : Int)) ∧ ((-1 : Int) < 0) ∧
      NodeVal.apply NodeVal.Exp [2, -1] = none :=
  ⟨by decide, by decide, by decide,
    exp_negative_exponent_fatal 2 (-1) (by decide) (by decide) (by decide)⟩

/-- C9: the lexer's `peek` does not consume: after a `peek` returning
`t`, the following `next` returns the same token `t` and merely
drains the cache; a repeated `peek` returns `t` again with the state
unchanged; and a first `peek` on an empty lookahead buffer computes
and caches exactly one token of the underlying input. -/
theorem peek_does_not_consume (l : Lexer) (t : Token) (l' : Lexer)
    (h : Lexer.peek l = some (t, l')) :
    Lexer.next l' = some (t, ⟨none, l'.s⟩) ∧
    Lexer.peek l' = some (t, l') ∧
    (l.peeked = none →
      Lexer.peek l = (rawNext l.s).map fun p => (p.1, ⟨some p.1, p.2⟩)) := by
  obtain ⟨pk, s⟩ := l
  cases pk with
  | some t0 =>
    simp only [Lexer.peek, Option.some.injEq, Prod.mk.injEq] at h
    obtain ⟨rfl, rfl⟩ := h
    exact ⟨rfl, rfl, fun hc => Option.noConfusion hc⟩
  | none =>
    simp only [Lexer.peek] at h
    cases hr : rawNext s with
    | none => rw [hr] at h; exact Option.noConfusion h
    | some p =>
      obtain ⟨t0, rest⟩ := p
      rw [hr] at h
      simp only [Option.map_some', Option.some.injEq, Prod.mk.injEq] at h
      obtain ⟨rfl, rfl⟩ := h
      refine ⟨rfl, rfl, fun _ => ?_⟩
      simp only [Lexer.peek, hr, Option.map_some']

/-- Closed witness for C9, at the fresh lexer over the input `"1"`. -/
theorem peek_does_not_consume_witness :
    Lexer.next ⟨some (Token.TInt 1), []⟩ = some (Token.TInt 1, ⟨none, []⟩) ∧
    Lexer.peek ⟨some (Token.TInt 1), []⟩ =
      some (Token.TInt 1, ⟨some (Token.TInt 1), []⟩) ∧
    ((⟨none, chars "1"⟩ : Lexer).peeked = none →
      Lexer.peek ⟨none, chars "1"⟩ =
        (rawNext (chars "1")).map fun p => (p.1, ⟨some p.1, p.2⟩)) :=
  peek_does_not_consume ⟨none, chars "1"⟩ (Token.TInt 1)
    ⟨some (Token.TInt 1), []⟩ rfl

/-- A whitespace byte is none of the other character classes the
scanning loop dispatches on. -/
lemma ws_not_other (c : Char) (h : isAsciiWhitespace c = true) :
    isOpChar c = false ∧ isAsciiDigit c = false ∧ isAsciiAlpha c = false := by
  simp only [isAsciiWhitespace, Bool.or_eq_true, beq_iff_eq] at h
  rcases h with ((((rfl | rfl) | rfl) | rfl) | rfl) <;> decide

/-- A digit byte is not one of the operator bytes. -/
lemma digit_not_op (c : Char) (h : isAsciiDigit c = true) :
    isOpChar c = false := by
  cases hop : isOpChar c with
  | false => rfl
  | true =>
    exfalso
    simp only [isOpChar, Bool.or_eq_true, beq_iff_eq] at hop
    rcases hop with (((((((rfl | rfl) | rfl) | rfl) | rfl) | rfl) | rfl) | rfl) <;>
      exact absurd h (by decide)

/-- The scanning loop skips a leading whitespace run. -/
lemma rawNext_ws_append (ws l : List Char)
    (h : ∀ c ∈ ws, isAsciiWhitespace c = true) :
    rawNext (ws ++ l) = rawNext l := by
  induction ws with
  | nil => rfl
  | cons c cs ih =>
    have hc := h c (List.mem_cons_self c cs)
    obtain ⟨h1, h2, h3⟩ := ws_not_other c hc
    rw [List.cons_append]
    have hstep : rawNext (c :: (cs ++ l)) = rawNext (cs ++ l) := by
      simp [rawNext, h1, h2, h3, hc]
    rw [hstep]
    exact ih fun d hd => h d (List.mem_cons_of_mem c hd)

/-- A digit run followed by a non-digit (or nothing) is exactly what
the greedy `takeWhile`/`dropWhile` pair of `Token::from_int` splits
off. -/
lemma takeWhile_digits (ds l : List Char)
    (hds : ∀ c ∈ ds, isAsciiDigit c = true)
    (hl : ∀ c cs, l = c :: cs → isAsciiDigit c = false) :
    (ds ++ l).takeWhile isAsciiDigit = ds ∧
      (ds ++ l).dropWhile isAsciiDigit = l := by
  induction ds with
  | nil =>
    cases l with
    | nil => exact ⟨rfl, rfl⟩
    | cons c cs =>
      have hc := hl c cs rfl
      exact ⟨by simp [List.takeWhile_cons, hc], by simp [List.dropWhile_cons, hc]⟩
  | cons d ds' ih =>
    have hd := hds d (List.mem_cons_self d ds')
    obtain ⟨ht, hdr⟩ := ih (fun c hc => hds c (List.mem_cons_of_mem d hc))
    exact ⟨by simp [List.takeWhile_cons, hd, ht],
      by simp [List.dropWhile_cons, hd, hdr]⟩

/-- The scanning loop on a digit run: the whole run becomes one `Int`
token whose value is the decimal reading of the run. -/
lemma rawNext_digits (ds l : List Char) (hne : ds ≠ [])
    (hds : ∀ c ∈ ds, isAsciiDigit c = true)
    (hl : ∀ c cs, l = c :: cs → isAsciiDigit c = false)
    (hrange : (digitsToNat ds : Int) ≤ i32max) :
    rawNext (ds ++ l) = some (Token.TInt (digitsToNat ds), l) := by
  cases ds with
  | nil => exact absurd rfl hne
  | cons d ds' =>
    have hd := hds d (List.mem_cons_self d ds')
    have hop := digit_not_op d hd
    obtain ⟨ht, hdr⟩ := takeWhile_digits (d :: ds') l hds hl
    rw [List.cons_append]
    have hstep : rawNext (d :: (ds' ++ l)) = Token.from_int (d :: (ds' ++ l)) := by
      simp [rawNext, hop, hd]
    rw [hstep]
    unfold Token.from_int
    rw [← List.cons_append, ht, hdr, if_pos hrange]

/-- Parsing a single integer literal surrounded by whitespace yields
exactly the corresponding leaf. -/
lemma expr_single_literal (ws1 ds ws2 : List Char)
    (hws1 : ∀ c ∈ ws1, isAsciiWhitespace c = true)
    (hws2 : ∀ c ∈ ws2, isAsciiWhitespace c = true)
    (hds : ∀ c ∈ ds, isAsciiDigit c = true)
    (hne : ds ≠ [])
    (hrange : (digitsToNat ds : Int) ≤ i32max) :
    expr (ws1 ++ (ds ++ ws2)) =
      some (Node.Leaf (LeafVal.IntV (digitsToNat ds))) := by
  have h1 : rawNext (ws1 ++ (ds ++ ws2)) =
      some (Token.TInt (digitsToNat ds), ws2) := by
    rw [rawNext_ws_append ws1 _ hws1]
    refine rawNext_digits ds ws2 hne hds (fun c cs hcc => ?_) hrange
    exact (ws_not_other c (hws2 c (by rw [hcc]; exact List.mem_cons_self c cs))).2.1
  have h2 : rawNext ws2 = some (Token.Eof, []) := by
    have h := rawNext_ws_append ws2 [] hws2
    rw [List.append_nil] at h
    exact h
  unfold expr fuelFor
  simp only [exprBp, exprLoop, Lexer.next, Lexer.peek, h1, h2, Option.map_some']

/-- C8: for every token stream consisting of a single decimal integer
literal in `i32` range, possibly surrounded by whitespace, `parse`
followed by `evaluate` yields exactly the literal's value. -/
theorem single_literal_roundtrip (ws1 ds ws2 : List Char)
    (hws1 : ∀ c ∈ ws1, isAsciiWhitespace c = true)
    (hws2 : ∀ c ∈ ws2, isAsciiWhitespace c = true)
    (hds : ∀ c ∈ ds, isAsciiDigit c = true)
    (hne : ds ≠ [])
    (hrange : (digitsToNat ds : Int) ≤ i32max) :
    evalExpr (ws1 ++ ds ++ ws2) = some ((digitsToNat ds : Int)) := by
  rw [evalExpr, List.append_assoc,
    expr_single_literal ws1 ds ws2 hws1 hws2 hds hne hrange, Option.some_bind]
  rfl

/-- Closed witness for C8, at the input `" 42 "`. -/
theorem single_literal_roundtrip_witness :
    evalExpr (chars " 42 ") = some 42 :=
  single_literal_roundtrip [' '] ['4', '2'] [' ']
    (by decide) (by decide) (by decide) (by decide) (by decide)

/-- Rendering a one-child `Add` node: `(+ v)`. -/
lemma render_unary_add (v : Int) :
    Node.render (Node.Node NodeVal.Add [Node.Leaf (LeafVal.IntV v)]) =
      "(+ " ++ toString v ++ ")" := by
  show ("(" ++ "+" ++ (" " ++ toString v ++ "") ++ ")" : String) =
    "(+ " ++ toString v ++ ")"
  apply String.ext
  simp [String.data_append]

/-- `iter().sum()` over a single in-range argument is the argument. -/
lemma apply_add_single (v : Int) (h1 : i32min ≤ v) (h2 : v ≤ i32max) :
    NodeVal.apply NodeVal.Add [v] = some v := by
  have hc : ckd v = some v := by
    rw [ckd, if_pos ⟨h1, h2⟩]
  simp [NodeVal.apply, List.foldlM, hc]

/-- Parsing `+` followed by a digit run yields the one-child `Add`
node over the literal's leaf. -/
lemma expr_prefix_plus (ds : List Char)
    (hds : ∀ c ∈ ds, isAsciiDigit c = true) (hne : ds ≠ [])
    (hrange : (digitsToNat ds : Int) ≤ i32max) :
    expr ('+' :: ds) =
      some (Node.Node NodeVal.Add
        [Node.Leaf (LeafVal.IntV (digitsToNat ds))]) := by
  have h1 : rawNext ('+' :: ds) = some (Token.Plus, ds) := rfl
  have h2 : rawNext ds = some (Token.TInt (digitsToNat ds), []) := by
    have h := rawNext_digits ds [] hne hds
      (fun c cs hcc => absurd hcc (by simp)) hrange
    rw [List.append_nil] at h
    exact h
  have h0 : rawNext ([] : List Char) = some (Token.Eof, []) := rfl
  unfold expr fuelFor
  simp only [exprBp, exprLoop, Lexer.next, Lexer.peek, h1, h2, h0,
    Option.map_some', NodeVal.prefix_prec, List.length_cons]

/-- C10: unary prefix plus is evaluable and is the identity: for a
digit run of value `n` in `i32` range, `parse` of `"+"` followed by
the run returns the one-child `Add` node rendering `"(+ n)"`, and
evaluating that tree yields exactly `n` (the evaluator's sum over one
child). -/
theorem prefix_plus_identity (ds : List Char)
    (hds : ∀ c ∈ ds, isAsciiDigit c = true) (hne : ds ≠ [])
    (hrange : (digitsToNat ds : Int) ≤ i32max) :
    expr ('+' :: ds) =
      some (Node.Node NodeVal.Add
        [Node.Leaf (LeafVal.IntV (digitsToNat ds))]) ∧
    (expr ('+' :: ds)).map Node.render =
      some ("(+ " ++ toString ((digitsToNat ds : Int)) ++ ")") ∧
    evalExpr ('+' :: ds) = some ((digitsToNat ds : Int)) := by
  have hp := expr_prefix_plus ds hds hne hrange
  refine ⟨hp, ?_, ?_⟩
  · rw [hp, Option.map_some', render_unary_add]
  · rw [evalExpr, hp, Option.some_bind]
    have hlist : evalList
        [Node.Leaf (LeafVal.IntV ((digitsToNat ds : Int)))] =
        some [(digitsToNat ds : Int)] := rfl
    simp only [eval, hlist, Option.some_bind]
    exact apply_add_single _
      (le_trans (by norm_num [i32min]) (Int.natCast_nonneg _)) hrange

/-- Closed witness for C10, at the input `"+7"`. -/
theorem prefix_plus_identity_witness :
    expr ('+' :: ['7']) =
      some (Node.Node NodeVal.Add [Node.Leaf (LeafVal.IntV 7)]) ∧
    (expr ('+' :: ['7'])).map Node.render = some "(+ 7)" ∧
    evalExpr ('+' :: ['7']) = some 7 :=
  prefix_plus_identity ['7'] (by decide) (by decide) (by decide)

/-- Two children satisfy the arity pattern for every operator. -/
lemma arityV_two (op : NodeVal) : arityV op 2 = true := by
  cases op <;> rfl

/-- One child satisfies the arity pattern for any operator that has a
postfix power (only `Fac`). -/
lemma arityV_postfix_op (op : NodeVal) (p : Int)
    (h : NodeVal.postfix_prec op = some p) : arityV op 1 = true := by
  cases op <;> first | rfl | exact absurd h (by simp [NodeVal.postfix_prec])

/-- Building a unary node preserves the arity invariant. -/
lemma arityOk_node1 (op : NodeVal) (x : Node) (h1 : arityV op 1 = true)
    (hx : arityOk x = true) : arityOk (Node.Node op [x]) = true := by
  simp [arityOk, arityOkList, h1, hx]

/-- Building a binary node preserves the arity invariant. -/
lemma arityOk_node2 (op : NodeVal) (x y : Node) (hx : arityOk x = true)
    (hy : arityOk y = true) : arityOk (Node.Node op [x, y]) = true := by
  simp [arityOk, arityOkList, arityV_two, hx, hy]

/-- The parser invariant behind the amended C2: any tree produced by
`expr_bp` (from a loop state whose accumulated left-hand side already
satisfies the invariant) has only 2-child `Mul` nodes and 1- or
2-child `Add` nodes, by induction on the fuel. -/
lemma arity_invariant (fuel : Nat) :
    (∀ tokens min_prec n l2, exprBp fuel tokens min_prec = some (n, l2) →
      arityOk n = true) ∧
    (∀ tokens min_prec lhs n l2, arityOk lhs = true →
      exprLoop fuel tokens min_prec lhs = some (n, l2) → arityOk n = true) := by
  induction fuel with
  | zero =>
    constructor
    · intro tokens min_prec n l2 h
      exact absurd h (by simp [exprBp])
    · intro tokens min_prec lhs n l2 hl h
      exact absurd h (by simp [exprLoop])
  | succ fuel ih =>
    obtain ⟨ihBp, ihLoop⟩ := ih
    constructor
    · intro tokens min_prec n l2 h
      simp only [exprBp, NodeVal.prefix_prec] at h
      split at h
      · exact absurd h (by simp)
      · split at h
        · refine ihLoop _ _ _ _ _ ?_ h
          rfl
        · refine ihLoop _ _ _ _ _ ?_ h
          rfl
        · -- LParen
          split at h
          · exact absurd h (by simp)
          · rename_i lhs tokens2 heq2
            split at h
            · exact ihLoop _ _ _ _ _ (ihBp _ _ _ _ heq2) h
            · exact absurd h (by simp)
          -- Minus
        · split at h
          · exact absurd h (by simp)
          · rename_i rhs tokens2 heq2
            refine ihLoop _ _ _ _ _ ?_ h
            exact arityOk_node1 _ _ rfl (ihBp _ _ _ _ heq2)
          -- Plus
        · split at h
          · exact absurd h (by simp)
          · rename_i rhs tokens2 heq2
            refine ihLoop _ _ _ _ _ ?_ h
            exact arityOk_node1 _ _ rfl (ihBp _ _ _ _ heq2)
        · exact absurd h (by simp)
    · intro tokens min_prec lhs n l2 hl h
      simp only [exprLoop] at h
      split at h
      · exact absurd h (by simp)
      · split at h
        · -- Eof
          simp only [Option.some.injEq, Prod.mk.injEq] at h
          obtain ⟨rfl, rfl⟩ := h
          exact hl
        · -- RParen
          simp only [Option.some.injEq, Prod.mk.injEq] at h
          obtain ⟨rfl, rfl⟩ := h
          exact hl
        · exact absurd h (by simp)
        · -- operator token
          split at h
          · exact absurd h (by simp)
          · rename_i op heq2
            split at h
            · -- postfix
              rename_i lhs_prec heq3
              split at h
              · simp only [Option.some.injEq, Prod.mk.injEq] at h
                obtain ⟨rfl, rfl⟩ := h
                exact hl
              · split at h
                · exact absurd h (by simp)
                · rename_i tk tokens2 heq4
                  exact ihLoop _ _ _ _ _
                    (arityOk_node1 _ _ (arityV_postfix_op _ _ heq3) hl) h
            · -- infix
              rename_i heq3
              split at h
              · exact absurd h (by simp)
              · rename_i lhs_prec rhs_prec heq4
                split at h
                · simp only [Option.some.injEq, Prod.mk.injEq] at h
                  obtain ⟨rfl, rfl⟩ := h
                  exact hl
                · split at h
                  · exact absurd h (by simp)
                  · rename_i tk tokens2 heq5
                    split at h
                    · exact absurd h (by simp)
                    · rename_i rhs tokens3 heq6
                      exact ihLoop _ _ _ _ _
                        (arityOk_node2 _ _ _ hl (ihBp _ _ _ _ heq6)) h

/-- C2 amended, invariant part: for every input accepted by `parse`,
every `Mul` node of the returned tree has exactly 2 children and
every `Add` node has 1 or 2 children (exactly 1 only for prefix
plus); `Add`/`Mul` applications with 0 or 3 and more children remain
unreachable under the current grammar. -/
theorem parse_add_mul_arity (s : List Char) (t : Node)
    (h : expr s = some t) : arityOk t = true := by
  unfold expr at h
  split at h
  · rename_i n l heq
    simp only [Option.some.injEq] at h
    subst h
    exact (arity_invariant _).1 _ _ _ _ heq
  · exact absurd h (by simp)

set_option maxRecDepth 4096 in
/-- Closed witness for the amended C2, at the parse of `"1*2"`. -/
theorem parse_add_mul_arity_witness :
    arityOk (Node.Node NodeVal.Mul
      [Node.Leaf (LeafVal.IntV 1), Node.Leaf (LeafVal.IntV 2)]) = true :=
  parse_add_mul_arity (chars "1*2")
    (Node.Node NodeVal.Mul
      [Node.Leaf (LeafVal.IntV 1), Node.Leaf (LeafVal.IntV 2)])
    (by rfl)

/-- Closed witness for C7: the suffix may even contain a byte the
lexer would rejct, since it is never read. -/
theorem trailing_input_never_read_witness :
    (expr (chars "1+2)" ++ chars "#")).map Node.render = some "(+ 1 2)" :=
  trailing_input_never_read (chars "#")
